import Mathlib

/-! apollo-confd: key addressing, watch index and change dispatch.

A shallow embedding of `apollo_confd.go`.

Go strings are modelled by Lean strings.  The only byte the program searches
for is `':'`, an ASCII byte that never occurs inside a multi-byte UTF-8
sequence, so cutting a string at the first `':'` byte and cutting it at the
first `':'` character give the same pieces.
-/

namespace Confd

/-! ## Key addressing -/

/-- Position of the first occurrence of `c` in `s`, counted from `i`;
`-1` when `c` does not occur. -/
def indexFrom (c : Char) : List Char → Int → Int
  | [], _ => -1
  | x :: xs, i => if x = c then i else indexFrom c xs (i + 1)

/-- Go `strings.IndexByte`: index of the first `c` in `s`, or `-1`. -/
def IndexByte (s : String) (c : Char) : Int :=
  indexFrom c s.data 0

/-- Go slice expression `s[:hi]`. -/
def sliceTo (s : String) (hi : Int) : String :=
  ⟨s.data.take hi.toNat⟩

/-- Go slice expression `s[lo:]`. -/
def sliceFrom (s : String) (lo : Int) : String :=
  ⟨s.data.drop lo.toNat⟩

/-- The function `splitKey` of `apollo_confd.go`. -/
def splitKey (key : String) : String × String :=
  let ns := "default"
  let idx := IndexByte key ':'
  let ns := if idx ≠ -1 then (if idx > 0 then sliceTo key idx else ns) else ns
  let key := if idx ≠ -1 then sliceFrom key (idx + 1) else key
  let key := if key = "" then "default" else key
  (ns, key)

/-- The function `joinKey` of `apollo_confd.go`. -/
def joinKey (ns key : String) : String :=
  ns ++ ":" ++ key

/-- The function `isDataNamespace` of `apollo_confd.go`
(`strings.HasSuffix(namespace, ".json")`). -/
def isDataNamespace (ns : String) : Bool :=
  ".json".data.isSuffixOf ns.data

/-- Reference definition of key splitting, following the specification's
wording: the text before the first `':'` is the namespace, the text after it
is the key, and an empty or absent part reads `"default"`. -/
def splitKeyRef (s : String) : String × String :=
  let orDefault : List Char → String := fun l => if l = [] then "default" else ⟨l⟩
  if ':' ∈ s.data then
    (orDefault (s.data.takeWhile (fun c => c != ':')),
     orDefault ((s.data.dropWhile (fun c => c != ':')).drop 1))
  else
    ("default", orDefault s.data)


/-! ## Byte strings -/

/-- A byte slice (`[]byte`); every element stands for one byte. -/
abbrev Bytes := List Nat


/-! ## SHA-256 (Go `crypto/sha256`, FIPS 180-4)

Bytes and 32-bit words are natural numbers; word arithmetic is reduced
modulo `2^32 = 4294967296`. -/

namespace Sha256

/-- Round constants. -/
def K : List Nat :=
  [0x428a2f98, 0x71374491, 0xb5c0fbcf, 0xe9b5dba5, 0x3956c25b, 0x59f111f1, 0x923f82a4, 0xab1c5ed5,
   0xd807aa98, 0x12835b01, 0x243185be, 0x550c7dc3, 0x72be5d74, 0x80deb1fe, 0x9bdc06a7, 0xc19bf174,
   0xe49b69c1, 0xefbe4786, 0x0fc19dc6, 0x240ca1cc, 0x2de92c6f, 0x4a7484aa, 0x5cb0a9dc, 0x76f988da,
   0x983e5152, 0xa831c66d, 0xb00327c8, 0xbf597fc7, 0xc6e00bf3, 0xd5a79147, 0x06ca6351, 0x14292967,
   0x27b70a85, 0x2e1b2138, 0x4d2c6dfc, 0x53380d13, 0x650a7354, 0x766a0abb, 0x81c2c92e, 0x92722c85,
   0xa2bfe8a1, 0xa81a664b, 0xc24b8b70, 0xc76c51a3, 0xd192e819, 0xd6990624, 0xf40e3585, 0x106aa070,
   0x19a4c116, 0x1e376c08, 0x2748774c, 0x34b0bcb5, 0x391c0cb3, 0x4ed8aa4a, 0x5b9cca4f, 0x682e6ff3,
   0x748f82ee, 0x78a5636f, 0x84c87814, 0x8cc70208, 0x90befffa, 0xa4506ceb, 0xbef9a3f7, 0xc67178f2]

/-- The eight working words. -/
structure Digest where
  a : Nat
  b : Nat
  c : Nat
  d : Nat
  e : Nat
  f : Nat
  g : Nat
  h : Nat

/-- Initial hash value. -/
def init : Digest :=
  ⟨0x6a09e667, 0xbb67ae85, 0x3c6ef372, 0xa54ff53a, 0x510e527f, 0x9b05688c, 0x1f83d9ab, 0x5be0cd19⟩

def add32 (x y : Nat) : Nat := (x + y) % 4294967296

def rotr (x n : Nat) : Nat := ((x >>> n) ||| (x <<< (32 - n))) % 4294967296

def ch (x y z : Nat) : Nat := (x &&& y) ^^^ ((x ^^^ 0xffffffff) &&& z)

def maj (x y z : Nat) : Nat := (x &&& y) ^^^ (x &&& z) ^^^ (y &&& z)

def bsig0 (x : Nat) : Nat := rotr x 2 ^^^ rotr x 13 ^^^ rotr x 22

def bsig1 (x : Nat) : Nat := rotr x 6 ^^^ rotr x 11 ^^^ rotr x 25

def ssig0 (x : Nat) : Nat := rotr x 7 ^^^ rotr x 18 ^^^ (x >>> 3)

def ssig1 (x : Nat) : Nat := rotr x 17 ^^^ rotr x 19 ^^^ (x >>> 10)

/-- Big-endian 32-bit words of a block. -/
def words : Bytes → List Nat
  | b0 :: b1 :: b2 :: b3 :: rest =>
      ((b0 % 256) * 16777216 + (b1 % 256) * 65536 + (b2 % 256) * 256 + b3 % 256) :: words rest
  | _ => []

/-- Extend the message schedule by `n` words. -/
def schedule : Nat → List Nat → List Nat
  | 0, w => w
  | n + 1, w =>
    let t := w.length
    let x := add32 (add32 (ssig1 (w.getD (t - 2) 0)) (w.getD (t - 7) 0))
      (add32 (ssig0 (w.getD (t - 15) 0)) (w.getD (t - 16) 0))
    schedule n (w ++ [x])

/-- One compression round with constant `kw.1` and schedule word `kw.2`. -/
def round (s : Digest) (kw : Nat × Nat) : Digest :=
  let t1 := add32 (add32 (add32 s.h (bsig1 s.e)) (add32 (ch s.e s.f s.g) kw.1)) kw.2
  let t2 := add32 (bsig0 s.a) (maj s.a s.b s.c)
  ⟨add32 t1 t2, s.a, s.b, s.c, add32 s.d t1, s.e, s.f, s.g⟩

/-- Compression of one 64-byte block. -/
def compress (s : Digest) (block : Bytes) : Digest :=
  let w := schedule 48 (words block)
  let r := (K.zip w).foldl round s
  ⟨add32 s.a r.a, add32 s.b r.b, add32 s.c r.c, add32 s.d r.d,
   add32 s.e r.e, add32 s.f r.f, add32 s.g r.g, add32 s.h r.h⟩

def be64 (n : Nat) : Bytes :=
  [n / 72057594037927936 % 256, n / 281474976710656 % 256, n / 1099511627776 % 256,
   n / 4294967296 % 256, n / 16777216 % 256, n / 65536 % 256, n / 256 % 256, n % 256]

/-- Padding: `0x80`, zeros, and the bit length as 8 big-endian bytes. -/
def pad (msg : Bytes) : Bytes :=
  msg ++ 0x80 :: List.replicate ((64 - (msg.length + 9) % 64) % 64) 0 ++ be64 (msg.length * 8)

/-- Cut the padded message into 64-byte blocks (`n` bounds the number of blocks). -/
def blocks : Nat → Bytes → List Bytes
  | 0, _ => []
  | n + 1, l => if l.isEmpty then [] else l.take 64 :: blocks n (l.drop 64)

def be32 (x : Nat) : Bytes := [x / 16777216 % 256, x / 65536 % 256, x / 256 % 256, x % 256]

/-- The 32-byte digest of a final state. -/
def output (s : Digest) : Bytes :=
  be32 s.a ++ be32 s.b ++ be32 s.c ++ be32 s.d ++ be32 s.e ++ be32 s.f ++ be32 s.g ++ be32 s.h

/-- The digest: `h := sha256.New(); h.Write(msg); h.Sum(nil)`. -/
def sum (msg : Bytes) : Bytes :=
  let p := pad msg
  output ((blocks p.length p).foldl compress init)

end Sha256


/-! ## Go `path.Join` -/

/-- The inner loop of the `..` case of `path.Clean`: starting from write
position `w`, move back while `w > dotdot` and `out[w] != '/'`. -/
def cleanBacktrack (out : List Char) (dotdot : Nat) : Nat → Nat
  | 0 => 0
  | w + 1 =>
    if w + 1 > dotdot ∧ out.getD (w + 1) '/' ≠ '/' then cleanBacktrack out dotdot w else w + 1

/-- The main loop of `path.Clean`: `rest` is the unread input `path[r:]`,
`out` the buffer written so far, `dotdot` the index where `..` must stop;
the first argument bounds the number of iterations. -/
def cleanLoop (rooted : Bool) : Nat → List Char → List Char → Nat → List Char
  | 0, _, out, _ => out
  | _ + 1, [], out, _ => out
  | n + 1, '/' :: rest, out, dotdot => cleanLoop rooted n rest out dotdot
  | n + 1, c :: rest, out, dotdot =>
    if c = '.' ∧ (rest = [] ∨ rest.head? = some '/') then
      cleanLoop rooted n rest out dotdot
    else if c = '.' ∧ rest.head? = some '.' ∧
        (rest.drop 1 = [] ∨ (rest.drop 1).head? = some '/') then
      if out.length > dotdot then
        cleanLoop rooted n (rest.drop 1)
          (out.take (cleanBacktrack out dotdot (out.length - 1))) dotdot
      else if !rooted then
        let out := (if out.length > 0 then out ++ ['/'] else out) ++ ['.', '.']
        cleanLoop rooted n (rest.drop 1) out out.length
      else
        cleanLoop rooted n (rest.drop 1) out dotdot
    else
      let out :=
        if (rooted ∧ out.length ≠ 1) ∨ (!rooted ∧ out.length ≠ 0) then out ++ ['/'] else out
      cleanLoop rooted n (rest.dropWhile (fun x => x != '/'))
        (out ++ c :: rest.takeWhile (fun x => x != '/')) dotdot

/-- Go `path.Clean`. -/
def pathClean (path : String) : String :=
  if path = "" then "."
  else
    let rooted := path.data.head? = some '/'
    let out :=
      if rooted then cleanLoop true path.data.length (path.data.drop 1) ['/'] 1
      else cleanLoop false path.data.length path.data [] 0
    if out.length = 0 then "." else ⟨out⟩

/-- Go `path.Join` of two elements: empty elements are ignored, the others
are joined by `/` and the result is cleaned; all elements empty gives `""`. -/
def pathJoin (a b : String) : String :=
  if a.length + b.length = 0 then ""
  else if a = "" then pathClean b
  else if b = "" then pathClean a
  else pathClean (a ++ "/" ++ b)

/-- Go `strings.TrimSuffix`. -/
def TrimSuffix (s suffix : String) : String :=
  if suffix.data.isSuffixOf s.data then ⟨s.data.take (s.data.length - suffix.data.length)⟩ else s

/-! ## Go maps

A map is a list of bindings with pairwise distinct keys; the order of the list
stands for one of the iteration orders the Go runtime may choose. -/

/-- Map read `m[k]` with the comma-ok result as an option. -/
def mapGet {K V : Type} [DecidableEq K] : List (K × V) → K → Option V
  | [], _ => none
  | (k', v) :: m, k => if k' = k then some v else mapGet m k

/-- Map write `m[k] = v`. -/
def mapSet {K V : Type} [DecidableEq K] : List (K × V) → K → V → List (K × V)
  | [], k, v => [(k, v)]
  | (k', v') :: m, k, v => if k' = k then (k, v) :: m else (k', v') :: mapSet m k v

/-- Map removal `delete(m, k)`. -/
def mapDelete {K V : Type} [DecidableEq K] : List (K × V) → K → List (K × V)
  | [], _ => []
  | (k', v') :: m, k => if k' = k then m else (k', v') :: mapDelete m k

/-! ## Data model -/

/-- The struct `watchGroup`. -/
structure watchGroup where
  path : String
  onChange : String
deriving DecidableEq, Repr

/-- One element of `WatchConfig.Groups` (`config.go`). -/
structure Group where
  Path : String
  Keys : List String
deriving DecidableEq, Repr

/-- The struct `WatchConfig` (`config.go`). -/
structure WatchConfig where
  OnChange : String
  Groups : List Group
deriving DecidableEq, Repr

/-- The change kinds of `storage.ConfigChangeType`; `OTHER` is any value
besides the three named constants. -/
inductive ChangeType where
  | ADDED
  | MODIFIED
  | DELETED
  | OTHER
deriving DecidableEq, Repr

/-- An entry of a change batch (`storage.ConfigChange`); the new value is the
string the program asserts it to be. -/
structure ConfigChange where
  ChangeType : ChangeType
  NewValue : String
deriving DecidableEq, Repr

/-- A change batch (`storage.ChangeEvent`): a namespace and a map from key to
change, listed in the order the `range` loop visits it. -/
structure ChangeEvent where
  Namespace : String
  Changes : List (String × ConfigChange)
deriving DecidableEq, Repr

/-- The collaborators the program calls but does not define: the template
library over template sets `T`, the JSON decoder into values `J`, the remote
client's cache, and the failures the operating system may report. -/
structure Env (T J : Type) where
  /-- The call `template.New("apollo-confd")`. -/
  newTemplate : T
  /-- The call `t.New(name).Parse(text)`: the resulting template set and
  whether parsing succeeded. -/
  parse : T → String → String → T × Bool
  /-- The call `t.ExecuteTemplate(w, name, data)`: the bytes written to `w`
  and whether execution succeeded. -/
  execute : T → String → List (String × J) → Bytes × Bool
  /-- The call `json.Unmarshal` into a fresh map; `none` on a decode error. -/
  unmarshal : String → Option J
  /-- The entries of `client.GetConfigCache(namespace)`. -/
  cache : String → List (String × String)
  /-- Whether `os.MkdirAll` fails on this directory. -/
  mkdirAllFails : String → Bool
  /-- Whether `ioutil.ReadFile` fails on this path with an error other than
  "does not exist". -/
  readFails : String → Bool
  /-- Whether `os.OpenFile` fails on this path. -/
  openFails : String → Bool
  /-- Whether `os.Rename` fails from the first path to the second. -/
  renameFails : String → String → Bool
  /-- Whether `os.Remove` fails on this path although the file exists. -/
  removeFails : String → Bool

/-- The struct `ApolloConfd` together with the part of the outside world its
methods act on: `files` is the file system (path to content) and `started`
lists the commands handed to `exec.Command(..).Start()`, oldest first. -/
structure ApolloConfd (T J : Type) where
  tpl : T
  data : List (String × J)
  watchGroups : List watchGroup
  fileWatchGroup : List (String × List Nat)
  files : List (String × Bytes)
  started : List String

/-- The value `NewApolloConfd` builds before it registers watches: no data, a
new template set, no watch groups, an empty index. -/
def fresh {T J : Type} (env : Env T J) (files : List (String × Bytes)) : ApolloConfd T J :=
  { tpl := env.newTemplate, data := [], watchGroups := [], fileWatchGroup := [],
    files := files, started := [] }

/-! ## Operations -/

/-- The function `fileSha256`: `none` is an error, a missing file gives the
empty slice `[]byte{}`, an existing file the digest of its content. -/
def fileSha256 {T J : Type} (env : Env T J) (files : List (String × Bytes))
    (filePath : String) : Option Bytes :=
  if env.readFails filePath then none
  else
    match mapGet files filePath with
    | none => some []
    | some data => some (Sha256.sum data)

/-- The body of the inner loop of `InitWatch` for one key of one group. -/
def initWatchKey {T J : Type} (c : ApolloConfd T J) (group : Group) (onChange : String)
    (fullKey : String) : ApolloConfd T J :=
  let fwg :=
    match mapGet c.fileWatchGroup fullKey with
    | none => mapSet c.fileWatchGroup fullKey []
    | some _ => c.fileWatchGroup
  let cur := (mapGet fwg fullKey).getD []
  { c with
    fileWatchGroup := mapSet fwg fullKey (cur ++ [c.watchGroups.length])
    watchGroups := c.watchGroups ++ [{ path := group.Path, onChange := onChange }] }

/-- The method `InitWatch`. -/
def InitWatch {T J : Type} (c : ApolloConfd T J) (config : WatchConfig) : ApolloConfd T J :=
  config.Groups.foldl
    (fun c group => group.Keys.foldl (fun c fullKey => initWatchKey c group config.OnChange fullKey) c)
    c

/-- The method `loadTemplate`: the state and whether an error was returned. -/
def loadTemplate {T J : Type} (env : Env T J) (c : ApolloConfd T J) (fullKey text : String) :
    ApolloConfd T J × Bool :=
  let r := env.parse c.tpl fullKey text
  ({ c with tpl := r.1 }, !r.2)

/-- The method `removeData`. -/
def removeData {T J : Type} (c : ApolloConfd T J) (name : String) : ApolloConfd T J :=
  { c with data := mapDelete c.data name }

/-- The method `saveJSONData`: the state and whether an error was returned. -/
def saveJSONData {T J : Type} (env : Env T J) (c : ApolloConfd T J) (name jsonStr : String) :
    ApolloConfd T J × Bool :=
  match env.unmarshal jsonStr with
  | none => (c, true)
  | some data => ({ c with data := mapSet c.data name data }, false)

/-- The method `InitNamespace`: the state and whether an error was returned. -/
def InitNamespace {T J : Type} (env : Env T J) (c : ApolloConfd T J) (ns : String) :
    ApolloConfd T J × Bool :=
  let cache := env.cache ns
  if isDataNamespace ns then
    match mapGet cache "content" with
    | none => (c, true)
    | some v => saveJSONData env c (TrimSuffix ns ".json") v
  else
    (cache.foldl (fun c kv => (loadTemplate env c (joinKey ns kv.1) kv.2).1) c, false)

/-- The path `renderAndSave` writes for an address in a target directory. -/
def renderPath (fullKey target : String) : String :=
  pathJoin target (splitKey fullKey).2

/-- The method `renderAndSave`: the state, the result `changed`, and whether
an error was returned. -/
def renderAndSave {T J : Type} (env : Env T J) (c : ApolloConfd T J) (fullKey target : String) :
    ApolloConfd T J × Bool × Bool :=
  if env.mkdirAllFails target then (c, false, true)
  else
    let filePath := renderPath fullKey target
    match fileSha256 env c.files filePath with
    | none => (c, false, true)
    | some before =>
      let newPath := filePath ++ ".inprocess"
      if env.openFails newPath then (c, false, true)
      else
        let c := { c with files := mapSet c.files newPath [] }
        let r := env.execute c.tpl fullKey c.data
        let c := { c with files := mapSet c.files newPath r.1 }
        if !r.2 then (c, false, true)
        else if env.renameFails newPath filePath then (c, false, true)
        else
          let c := { c with files := mapSet (mapDelete c.files newPath) filePath r.1 }
          match fileSha256 env c.files filePath with
          | none => (c, false, true)
          | some after => (c, !(before == after), false)

/-- The inner loop of `LoadAll` over the group indices of one address;
`none` is the panic of an out-of-range `c.watchGroups[index]`. -/
def loadAllIndices {T J : Type} (env : Env T J) (fullKey : String) :
    ApolloConfd T J × Bool → List Nat → Option (ApolloConfd T J × Bool)
  | acc, [] => some acc
  | (c, changed), index :: rest =>
    match c.watchGroups[index]? with
    | none => none
    | some group =>
      let r := renderAndSave env c fullKey group.path
      if r.2.2 then loadAllIndices env fullKey (r.1, changed) rest
      else loadAllIndices env fullKey (r.1, if r.2.1 then true else changed) rest

/-- The outer loop of `LoadAll` over the bindings of `fileWatchGroup`. -/
def loadAllKeys {T J : Type} (env : Env T J) :
    ApolloConfd T J × Bool → List (String × List Nat) → Option (ApolloConfd T J × Bool)
  | acc, [] => some acc
  | acc, (fullKey, groupIndices) :: rest =>
    match loadAllIndices env fullKey acc groupIndices with
    | none => none
    | some acc => loadAllKeys env acc rest

/-- The method `LoadAll`: the state and the result `changed` (the error
result is always nil); `none` is a panic. -/
def LoadAll {T J : Type} (env : Env T J) (c : ApolloConfd T J) : Option (ApolloConfd T J × Bool) :=
  loadAllKeys env (c, false) c.fileWatchGroup

/-- The call `os.Remove(filePath)`; its error is only logged. -/
def osRemove {T J : Type} (env : Env T J) (c : ApolloConfd T J) (filePath : String) :
    ApolloConfd T J :=
  if env.removeFails filePath then c else { c with files := mapDelete c.files filePath }

/-- The local variables of `OnChange` that live across loop iterations. -/
structure Dispatch (T J : Type) where
  c : ApolloConfd T J
  dataChanged : Bool
  changedGroups : List (Nat × watchGroup)

/-- How a loop body ends: go on with the next iteration, return from the
function, or panic. -/
inductive Flow (σ ρ : Type) where
  | next (s : σ)
  | done (r : ρ)
  | panic

/-- The path `OnChange` removes for a deleted key in a target directory. -/
def removePath (key target : String) : String :=
  pathJoin target key

/-- The group loop of the `DELETED` case of `OnChange` in a template namespace;
`none` is the panic of an out-of-range index. -/
def removeGroups {T J : Type} (env : Env T J) (key : String) :
    Dispatch T J → List Nat → Option (Dispatch T J)
  | d, [] => some d
  | d, index :: rest =>
    match d.c.watchGroups[index]? with
    | none => none
    | some group =>
      let c := osRemove env d.c (removePath key group.path)
      removeGroups env key { d with c := c, changedGroups := mapSet d.changedGroups index group } rest

/-- The group loop of the `ADDED, MODIFIED` case of `OnChange` in a template
namespace (`none` is the panic of an out-of-range index). -/
def renderGroups {T J : Type} (env : Env T J) (fullKey : String) :
    Dispatch T J → List Nat → Option (Dispatch T J)
  | d, [] => some d
  | d, index :: rest =>
    match d.c.watchGroups[index]? with
    | none => none
    | some group =>
      let r := renderAndSave env d.c fullKey group.path
      if r.2.1 then
        renderGroups env fullKey
          { d with c := r.1, changedGroups := mapSet d.changedGroups index group } rest
      else renderGroups env fullKey { d with c := r.1 } rest

/-- The body of the loop of `OnChange` over `event.Changes`. -/
def onChangeEntry {T J : Type} (env : Env T J) (event : ChangeEvent) (d : Dispatch T J)
    (key : String) (change : ConfigChange) : Flow (Dispatch T J) (ApolloConfd T J) :=
  let fullKey := joinKey event.Namespace key
  match change.ChangeType with
  | .DELETED =>
    if isDataNamespace event.Namespace then
      if event.Changes.length = 0 then .done d.c
      else
        let name := TrimSuffix event.Namespace ".json"
        .next { d with c := removeData d.c name, dataChanged := true }
    else
      match mapGet d.c.fileWatchGroup fullKey with
      | some groupIndices =>
        match removeGroups env key d groupIndices with
        | none => .panic
        | some d => .next d
      | none => .next d
  | .ADDED | .MODIFIED =>
    if isDataNamespace event.Namespace then
      .next { d with c := (InitNamespace env d.c event.Namespace).1, dataChanged := true }
    else
      match mapGet d.c.fileWatchGroup fullKey with
      | some groupIndices =>
        let c := (loadTemplate env d.c fullKey change.NewValue).1
        match renderGroups env fullKey { d with c := c } groupIndices with
        | none => .panic
        | some d => .next d
      | none => .next d
  | .OTHER => .next d

/-- The loop of `OnChange` over `event.Changes`. -/
def onChangeLoop {T J : Type} (env : Env T J) (event : ChangeEvent) :
    Dispatch T J → List (String × ConfigChange) → Flow (Dispatch T J) (ApolloConfd T J)
  | d, [] => .next d
  | d, (key, change) :: rest =>
    match onChangeEntry env event d key change with
    | .next d => onChangeLoop env event d rest
    | .done c => .done c
    | .panic => .panic

/-- The loop `for i, group := range c.watchGroups { changedGroups[i] = group }`,
started at index `i`. -/
def markAll : List (Nat × watchGroup) → Nat → List watchGroup → List (Nat × watchGroup)
  | m, _, [] => m
  | m, i, group :: rest => markAll (mapSet m i group) (i + 1) rest

/-- The block `if dataChanged { ... }` of `OnChange`; `none` is a panic of
`LoadAll`. -/
def reloadIfDataChanged {T J : Type} (env : Env T J) (d : Dispatch T J) : Option (Dispatch T J) :=
  if d.dataChanged then
    match LoadAll env d.c with
    | none => none
    | some (c, changed) =>
      if changed then
        some { d with c := c, changedGroups := markAll d.changedGroups 0 c.watchGroups }
      else some { d with c := c }
  else some d

/-- The final loop of `OnChange`: every group of `changedGroups` with a
non-empty command has it started. -/
def fireHooks {T J : Type} (c : ApolloConfd T J) : List (Nat × watchGroup) → ApolloConfd T J
  | [] => c
  | (_, group) :: rest =>
    if group.onChange ≠ "" then fireHooks { c with started := c.started ++ [group.onChange] } rest
    else fireHooks c rest

/-- The affected set of `OnChange`: the loop variables as they stand right
before the final loop that starts the commands. -/
def affected {T J : Type} (env : Env T J) (c : ApolloConfd T J) (event : ChangeEvent) :
    Flow (Dispatch T J) (ApolloConfd T J) :=
  match onChangeLoop env event { c := c, dataChanged := false, changedGroups := [] }
      event.Changes with
  | .next d =>
    match reloadIfDataChanged env d with
    | none => .panic
    | some d => .next d
  | .done c => .done c
  | .panic => .panic

/-- The method `OnChange`; `none` is a panic. -/
def OnChange {T J : Type} (env : Env T J) (c : ApolloConfd T J) (event : ChangeEvent) :
    Option (ApolloConfd T J) :=
  match affected env c event with
  | .next d => some (fireHooks d.c d.changedGroups)
  | .done c => some c
  | .panic => none

/-! ## Predicates on states -/

/-- Every index stored in a list of the index map `m` is below `n`. -/
def boundedBy (m : List (String × List Nat)) (n : Nat) : Prop :=
  ∀ kv ∈ m, ∀ i ∈ kv.2, i < n

instance (m : List (String × List Nat)) (n : Nat) : Decidable (boundedBy m n) := by
  unfold boundedBy
  infer_instance

/-- The state `c2` has the watch groups, the index and the started commands of
`c1`. -/
def sameWatch {T J : Type} (c1 c2 : ApolloConfd T J) : Prop :=
  c2.watchGroups = c1.watchGroups ∧ c2.fileWatchGroup = c1.fileWatchGroup ∧
    c2.started = c1.started

/-- One iteration of the loop of `renderGroups` for the index `index` whose
record is `group`. -/
def renderStep {T J : Type} (env : Env T J) (fullKey : String) (d : Dispatch T J) (index : Nat)
    (group : watchGroup) : Dispatch T J :=
  if (renderAndSave env d.c fullKey group.path).2.1 then
    { d with c := (renderAndSave env d.c fullKey group.path).1
             changedGroups := mapSet d.changedGroups index group }
  else { d with c := (renderAndSave env d.c fullKey group.path).1 }

/-- The files left by one `os.Remove` on the path `pathOf group.path` of the
group stored at `index` in `wgs`. -/
def removeAt {T J : Type} (env : Env T J) (wgs : List watchGroup) (pathOf : String → String)
    (files : List (String × Bytes)) (index : Nat) : List (String × Bytes) :=
  match wgs[index]? with
  | some group =>
    if env.removeFails (pathOf group.path) then files else mapDelete files (pathOf group.path)
  | none => files

/-! ## A concrete environment

Templates are literal texts: a text parses unless it contains `{`, executing
a template writes its text followed by the stored data sets, and executing an
unknown name fails.  The remote cache holds the data namespace `config.json`
with content `world`. -/

/-- The bytes of an ASCII text. -/
def ascii (s : String) : Bytes := s.data.map Char.toNat

/-- A small environment in which no operating-system call fails. -/
def toyEnv : Env (List (String × String)) String where
  newTemplate := []
  parse := fun t name text => if '{' ∈ text.data then (t, false) else (mapSet t name text, true)
  execute := fun t name data =>
    match mapGet t name with
    | none => ([], false)
    | some text => (ascii text ++ (data.map (fun kv => ascii kv.2)).flatten, true)
  unmarshal := fun s => some s
  cache := fun ns => if ns = "config.json" then [("content", "world")] else []
  mkdirAllFails := fun _ => false
  readFails := fun _ => false
  openFails := fun _ => false
  renameFails := fun _ _ => false
  removeFails := fun _ => false


/-- A watch configuration with one group that lists two keys of the template
namespace `app`. -/
def twoKeyConfig : WatchConfig :=
  { OnChange := "/bin/reload", Groups := [{ Path := "/out", Keys := ["app:a", "app:b"] }] }

/-- A change batch of namespace `app` that modifies the keys `a` and `b`. -/
def twoKeyEvent : ChangeEvent :=
  { Namespace := "app",
    Changes := [("a", { ChangeType := .MODIFIED, NewValue := "x" }),
                ("b", { ChangeType := .MODIFIED, NewValue := "y" })] }

/-- A state whose template set holds, under the address `app:empty`, a
template that renders to no output; no file exists. -/
def emptyTemplateState : ApolloConfd (List (String × String)) String :=
  (loadTemplate toyEnv (fresh toyEnv []) "app:empty" "").1

/-- A state that watches the address `app:` (empty key) in the directory
`/out`, after its template `hello` was loaded and rendered by `LoadAll`. -/
def emptyKeyState : Option (ApolloConfd (List (String × String)) String) :=
  (LoadAll toyEnv
    (loadTemplate toyEnv
      (InitWatch (fresh toyEnv [])
        { OnChange := "/bin/reload", Groups := [{ Path := "/out", Keys := ["app:"] }] })
      "app:" "hello").1).map (fun r => r.1)

/-- A change batch of namespace `app` that deletes the empty key. -/
def emptyKeyDeleted : ChangeEvent :=
  { Namespace := "app", Changes := [("", { ChangeType := .DELETED, NewValue := "" })] }

/-- The state after start-up with `twoKeyConfig`: the templates of `app:a` and
`app:b` are loaded and every watched file is rendered. -/
def twoKeyLoaded : Option (ApolloConfd (List (String × String)) String) :=
  (LoadAll toyEnv
    (loadTemplate toyEnv
      (loadTemplate toyEnv (InitWatch (fresh toyEnv []) twoKeyConfig) "app:a" "x").1
      "app:b" "y").1).map (fun r => r.1)

/-- A change batch of the data namespace `config.json` that modifies its
content. -/
def dataEvent : ChangeEvent :=
  { Namespace := "config.json",
    Changes := [("content", { ChangeType := .MODIFIED, NewValue := "world" })] }

/-- A state that watches `app:a` in `/out` and holds the template `hello` for
it; the target file does not exist. -/
def staleTemplateState : ApolloConfd (List (String × String)) String :=
  (loadTemplate toyEnv
    (InitWatch (fresh toyEnv [])
      { OnChange := "/bin/reload", Groups := [{ Path := "/out", Keys := ["app:a"] }] })
    "app:a" "hello").1

/-- A change batch of namespace `app` that modifies the key `a` to a text
that does not parse. -/
def badTemplateEvent : ChangeEvent :=
  { Namespace := "app", Changes := [("a", { ChangeType := .MODIFIED, NewValue := "\x7b\x7bbad" })] }

/-- The state `staleTemplateState` after its watched address `app:a` was
rendered into `/out`. -/
def renderedState : ApolloConfd (List (String × String)) String :=
  (renderAndSave toyEnv staleTemplateState "app:a" "/out").1

/-- A change batch of namespace `app` that deletes the key `a`. -/
def deletedEvent : ChangeEvent :=
  { Namespace := "app", Changes := [("a", { ChangeType := .DELETED, NewValue := "" })] }

/-! ## Facts about key addressing -/

theorem indexFrom_eq (c : Char) (l : List Char) (i : Int) :
    indexFrom c l i =
      if c ∈ l then i + ((l.takeWhile (fun x => x != c)).length : Int) else -1 := by
  induction l generalizing i with
  | nil => simp [indexFrom]
  | cons x xs ih =>
    by_cases hx : x = c
    · subst hx
      simp [indexFrom, List.takeWhile]
    · have hx2 : ¬ c = x := fun h => hx h.symm
      simp only [indexFrom, if_neg hx, ih, List.mem_cons, hx2, false_or]
      split
      · have : (x != c) = true := by simpa using hx
        simp [List.takeWhile, this]
        omega
      · rfl

theorem take_length_takeWhile (p : Char → Bool) (l : List Char) :
    l.take (l.takeWhile p).length = l.takeWhile p := by
  induction l with
  | nil => rfl
  | cons x xs ih =>
    by_cases h : p x = true
    · simp [List.takeWhile, h, ih]
    · simp [List.takeWhile, h]

theorem drop_length_takeWhile (p : Char → Bool) (l : List Char) :
    l.drop (l.takeWhile p).length = l.dropWhile p := by
  induction l with
  | nil => rfl
  | cons x xs ih =>
    by_cases h : p x = true
    · simp [List.takeWhile, List.dropWhile, h, ih]
    · simp [List.takeWhile, List.dropWhile, h]

theorem string_eq_empty_iff (l : List Char) : ((⟨l⟩ : String) = "") ↔ l = [] := by
  constructor
  · intro h
    have := congrArg String.data h
    simpa using this
  · intro h
    subst h
    rfl

/-- The source function and the reference definition agree everywhere. -/
theorem splitKey_eq_ref (s : String) : splitKey s = splitKeyRef s := by
  obtain ⟨l⟩ := s
  unfold splitKey splitKeyRef IndexByte
  simp only [indexFrom_eq]
  by_cases hmem : ':' ∈ l
  · simp only [hmem, if_true]
    set n := (l.takeWhile (fun x => x != ':')).length with hn
    have hne : ¬ ((0 : Int) + (n : Int) = -1) := by omega
    simp only [ne_eq, hne, not_false_eq_true, if_true]
    have h1 : sliceTo ⟨l⟩ (0 + (n : Int)) = ⟨l.takeWhile (fun x => x != ':')⟩ := by
      simp [sliceTo, hn, take_length_takeWhile]
    have h2 : sliceFrom ⟨l⟩ (0 + (n : Int) + 1) =
        ⟨(l.dropWhile (fun x => x != ':')).drop 1⟩ := by
      have : (0 + (n : Int) + 1).toNat = n + 1 := by omega
      simp only [sliceFrom, this]
      rw [← drop_length_takeWhile, List.drop_drop, ← hn]
    rw [h1, h2]
    simp only [string_eq_empty_iff]
    congr 1
    by_cases h0 : l.takeWhile (fun x => x != ':') = []
    · have : n = 0 := by simp [hn, h0]
      simp [h0, this]
    · have : 0 < n := by
        rw [hn]; exact List.length_pos.mpr h0
      have h3 : ¬ n = 0 := by omega
      simp [h0, h3]
  · simp only [hmem, if_false]
    simp only [ne_eq, not_true_eq_false, if_false]
    have : ((⟨l⟩ : String) = "") ↔ l = [] := string_eq_empty_iff l
    by_cases h0 : l = []
    · subst h0; rfl
    · have h1 : ¬ ((⟨l⟩ : String) = "") := fun h => h0 (this.mp h)
      simp [h0, h1]

theorem takeWhile_append_sep (a b : List Char) (h : ':' ∉ a) :
    (a ++ ':' :: b).takeWhile (fun x => x != ':') = a := by
  induction a with
  | nil => simp [List.takeWhile]
  | cons x xs ih =>
    have hx : x ≠ ':' := fun e => h (by simp [e])
    have hxs : ':' ∉ xs := fun e => h (by simp [e])
    have : (x != ':') = true := by simpa using hx
    simp [List.takeWhile, this, ih hxs]

theorem dropWhile_append_sep (a b : List Char) (h : ':' ∉ a) :
    (a ++ ':' :: b).dropWhile (fun x => x != ':') = ':' :: b := by
  induction a with
  | nil => simp [List.dropWhile]
  | cons x xs ih =>
    have hx : x ≠ ':' := fun e => h (by simp [e])
    have hxs : ':' ∉ xs := fun e => h (by simp [e])
    have : (x != ':') = true := by simpa using hx
    simp [List.dropWhile, this, ih hxs]

theorem joinKey_data (ns key : String) : (joinKey ns key).data = ns.data ++ ':' :: key.data := by
  simp [joinKey, String.data_append]

/-- Splitting a joined address whose namespace has no separator: the namespace
comes back when it is non-empty, the key when it is non-empty. -/
theorem splitKey_joinKey_general (ns key : String) (hsep : ':' ∉ ns.data) :
    splitKey (joinKey ns key) =
      (if ns = "" then "default" else ns, if key = "" then "default" else key) := by
  rw [splitKey_eq_ref]
  unfold splitKeyRef
  rw [joinKey_data]
  have hmem : ':' ∈ ns.data ++ ':' :: key.data := by simp
  simp only [hmem, if_true, takeWhile_append_sep _ _ hsep, dropWhile_append_sep _ _ hsep,
    List.drop_one, List.tail_cons]
  obtain ⟨a⟩ := ns
  obtain ⟨b⟩ := key
  simp only [string_eq_empty_iff]

/-! ## Key addressing: the claims -/

/-- Claim C1, as stated, fails: with the namespace `a:b` and the key `k` (both
non-empty, no `:` in the key) the joined address splits into `a` and `b:k`. -/
theorem splitKey_joinKey_counterexample :
    "a:b" ≠ "" ∧ "k" ≠ "" ∧ ':' ∉ "k".data ∧
      splitKey (joinKey "a:b" "k") = ("a", "b:k") ∧
      splitKey (joinKey "a:b" "k") ≠ ("a:b", "k") := by
  decide

/-- Claim C1 (amended): for every non-empty namespace that contains no `:` and
every non-empty key, splitting the joined address gives back the namespace and
the key. -/
theorem splitKey_joinKey (ns key : String) (hns : ns ≠ "") (hsep : ':' ∉ ns.data)
    (hkey : key ≠ "") : splitKey (joinKey ns key) = (ns, key) := by
  rw [splitKey_joinKey_general ns key hsep, if_neg hns, if_neg hkey]

/-- Claim C1 (amended) at the namespace `ns1` and the key `a:b`. -/
theorem splitKey_joinKey_witness :
    "ns1" ≠ "" ∧ ':' ∉ "ns1".data ∧ "a:b" ≠ "" ∧ splitKey (joinKey "ns1" "a:b") = ("ns1", "a:b") :=
  ⟨by decide, by decide, by decide,
    splitKey_joinKey "ns1" "a:b" (by decide) (by decide) (by decide)⟩

/-- Claim C3: `splitKey` agrees with the reference definition on every string,
and takes the four listed values. -/
theorem splitKey_spec :
    (∀ s : String, splitKey s = splitKeyRef s) ∧
      splitKey "" = ("default", "default") ∧
      splitKey "ns:" = ("ns", "default") ∧
      splitKey ":k" = ("default", "k") ∧
      splitKey "k" = ("default", "k") :=
  ⟨splitKey_eq_ref, by decide, by decide, by decide, by decide⟩

/-- Claim C4 on the inputs of `TestSplitAndJoinKey`: `splitKey` does not cut at
`/`; the first three test inputs come back whole as the key, under the
namespace `default`, and only the fourth meets the test's expectation. -/
theorem splitKey_slash :
    splitKey "ns1/testkey" = ("default", "ns1/testkey") ∧
      splitKey "ns1/testkey" ≠ ("ns1", "testkey") ∧
      splitKey "ns1/" = ("default", "ns1/") ∧
      splitKey "ns1/" ≠ ("ns1", "default") ∧
      splitKey "/testkey" = ("default", "/testkey") ∧
      splitKey "/testkey" ≠ ("default", "testkey") ∧
      splitKey "testkey" = ("default", "testkey") := by
  decide

/-! ## Watch index construction and hook deduplication on a two-key group -/

/-- Claim C5 on a configuration with one group listing two keys: `InitWatch`
appends two records, and the two keys look up different indices. -/
theorem InitWatch_two_keys :
    twoKeyConfig.Groups.length = 1 ∧
      (InitWatch (fresh toyEnv []) twoKeyConfig).watchGroups =
        [{ path := "/out", onChange := "/bin/reload" },
         { path := "/out", onChange := "/bin/reload" }] ∧
      mapGet (InitWatch (fresh toyEnv []) twoKeyConfig).fileWatchGroup "app:a" = some [0] ∧
      mapGet (InitWatch (fresh toyEnv []) twoKeyConfig).fileWatchGroup "app:b" = some [1] := by
  decide

/-- Claim C2 on a configuration with one group listing two keys and a batch
modifying both: both renders report changed content, two indices are
affected, and the group's command is started twice. -/
theorem OnChange_two_keys :
    (renderAndSave toyEnv
        (loadTemplate toyEnv (InitWatch (fresh toyEnv []) twoKeyConfig) "app:a" "x").1
        "app:a" "/out").2 = (true, false) ∧
      (match affected toyEnv (InitWatch (fresh toyEnv []) twoKeyConfig) twoKeyEvent with
        | .next d => d.changedGroups.map (fun kv => kv.1)
        | _ => []) = [0, 1] ∧
      (OnChange toyEnv (InitWatch (fresh toyEnv []) twoKeyConfig) twoKeyEvent).map
        (fun c => c.started) = some ["/bin/reload", "/bin/reload"] := by
  decide

/-! ## Change detection -/

set_option maxRecDepth 100000

theorem mapGet_mapSet_self {K V : Type} [DecidableEq K] (m : List (K × V)) (k : K) (v : V) :
    mapGet (mapSet m k v) k = some v := by
  induction m with
  | nil => simp [mapSet, mapGet]
  | cons kv m ih =>
    obtain ⟨k', v'⟩ := kv
    by_cases h : k' = k <;> simp [mapSet, mapGet, h, ih]

/-- Every digest has 32 bytes. -/
theorem Sha256.sum_length (m : Bytes) : (Sha256.sum m).length = 32 := by
  simp [Sha256.sum, Sha256.output, Sha256.be32]

/-- No content hashes to the empty slice. -/
theorem Sha256.sum_ne_nil (m : Bytes) : Sha256.sum m ≠ [] := by
  intro h
  have := Sha256.sum_length m
  rw [h] at this
  simp at this

/-- The model computes the standard digest of the empty input. -/
theorem Sha256.sum_nil :
    Sha256.sum [] =
      [0xe3, 0xb0, 0xc4, 0x42, 0x98, 0xfc, 0x1c, 0x14, 0x9a, 0xfb, 0xf4, 0xc8, 0x99, 0x6f, 0xb9,
       0x24, 0x27, 0xae, 0x41, 0xe4, 0x64, 0x9b, 0x93, 0x4c, 0xa4, 0x95, 0x99, 0x1b, 0x78, 0x52,
       0xb8, 0x55] := by
  decide

/-- Claim C6, as stated, fails: for an absent file `fileSha256` yields the
empty slice, for an existing empty file the 32-byte digest of no input; with
the target absent and a template that renders to no output, `renderAndSave`
returns `changed = true` without error. -/
theorem renderAndSave_absent_counterexample :
    fileSha256 toyEnv [] "/out/empty" = some [] ∧
      fileSha256 toyEnv [("/out/empty", [])] "/out/empty" = some (Sha256.sum []) ∧
      fileSha256 toyEnv [] "/out/empty" ≠ fileSha256 toyEnv [("/out/empty", [])] "/out/empty" ∧
      mapGet emptyTemplateState.files (renderPath "app:empty" "/out") = none ∧
      toyEnv.execute emptyTemplateState.tpl "app:empty" emptyTemplateState.data = ([], true) ∧
      (renderAndSave toyEnv emptyTemplateState "app:empty" "/out").2 = (true, false) := by
  decide

/-- Claim C6 (amended): for a path where no file exists and reading does not
fail otherwise, `fileSha256` returns the empty slice, which is the digest of
no content; so when the target file is absent and `renderAndSave` returns
without error, it returns `changed = true`, whatever the template renders. -/
theorem renderAndSave_absent {T J : Type} (env : Env T J) (c : ApolloConfd T J)
    (fullKey target : String)
    (habs : mapGet c.files (renderPath fullKey target) = none)
    (hok : (renderAndSave env c fullKey target).2.2 = false) :
    fileSha256 env c.files (renderPath fullKey target) = some [] ∧
      (∀ data : Bytes, Sha256.sum data ≠ []) ∧
      (renderAndSave env c fullKey target).2.1 = true := by
  unfold renderAndSave at hok ⊢
  by_cases h1 : env.mkdirAllFails target = true
  · simp [h1] at hok
  by_cases h2 : env.readFails (renderPath fullKey target) = true
  · simp [h1, fileSha256, h2] at hok
  have hb : fileSha256 env c.files (renderPath fullKey target) = some [] := by
    simp [fileSha256, h2, habs]
  refine ⟨hb, Sha256.sum_ne_nil, ?_⟩
  simp only [h1, hb] at hok ⊢
  by_cases h3 : env.openFails (renderPath fullKey target ++ ".inprocess") = true
  · simp [h3] at hok
  simp only [h3] at hok ⊢
  by_cases h4 : (env.execute c.tpl fullKey c.data).2 = true
  · by_cases h5 : env.renameFails (renderPath fullKey target ++ ".inprocess")
        (renderPath fullKey target) = true
    · simp [h4, h5] at hok
    · simp only [h4, h5, fileSha256, h2, mapGet_mapSet_self] at hok ⊢
      have := Sha256.sum_ne_nil (env.execute c.tpl fullKey c.data).1
      simp
      intro h
      exact this h
  · simp [h4] at hok

/-- Claim C6 (amended) on the state with the empty template and no file. -/
theorem renderAndSave_absent_witness :
    mapGet emptyTemplateState.files (renderPath "app:empty" "/out") = none ∧
      (renderAndSave toyEnv emptyTemplateState "app:empty" "/out").2.2 = false ∧
      (renderAndSave toyEnv emptyTemplateState "app:empty" "/out").2.1 = true :=
  ⟨by decide, by decide,
    (renderAndSave_absent toyEnv emptyTemplateState "app:empty" "/out"
      (by decide) (by decide)).2.2⟩

/-! ## Removal of rendered files -/

/-- Claim C8, as stated, fails at the template namespace `app` and the empty
event key: the renderer writes `/out/default`, the deletion removes `/out`, and
after `OnChange` the rendered file is still there.  It also fails at the
template namespace `a:b` and the key `k`. -/
theorem removePath_counterexample :
    isDataNamespace "app" = false ∧
      (splitKey (joinKey "app" "")).2 = "default" ∧
      renderPath (joinKey "app" "") "/out" = "/out/default" ∧
      removePath "" "/out" = "/out" ∧
      emptyKeyState.map (fun c => (c.fileWatchGroup, c.files)) =
        some ([("app:", [0])], [("/out/default", ascii "hello")]) ∧
      (emptyKeyState.bind (fun c => OnChange toyEnv c emptyKeyDeleted)).map (fun c => c.files) =
        some [("/out/default", ascii "hello")] ∧
      isDataNamespace "a:b" = false ∧
      renderPath (joinKey "a:b" "k") "/out" = "/out/b:k" ∧
      removePath "k" "/out" = "/out/k" := by
  decide

/-- For a namespace without `:` and a non-empty key, the raw key is the key
component of the joined address, so joining it to a directory gives the path
of the rendered file. -/
theorem removePath_renderPath (ns k : String) (hsep : ':' ∉ ns.data) (hk : k ≠ "") :
    (splitKey (joinKey ns k)).2 = k ∧
      removePath k = renderPath (joinKey ns k) := by
  have hkey : (splitKey (joinKey ns k)).2 = k := by
    rw [splitKey_joinKey_general ns k hsep]
    simp [hk]
  refine ⟨hkey, ?_⟩
  funext target
  simp [removePath, renderPath, hkey]

/-! ## The index stays within bounds -/

theorem mem_of_mapGet {K V : Type} [DecidableEq K] (m : List (K × V)) (k : K) (v : V)
    (h : mapGet m k = some v) : (k, v) ∈ m := by
  induction m with
  | nil => simp [mapGet] at h
  | cons kv m ih =>
    obtain ⟨k', v'⟩ := kv
    by_cases hk : k' = k
    · simp [mapGet, hk] at h
      simp [hk, h]
    · simp [mapGet, hk] at h
      exact List.mem_cons_of_mem _ (ih h)

theorem mem_mapSet {K V : Type} [DecidableEq K] (m : List (K × V)) (k : K) (v : V)
    (kv : K × V) (h : kv ∈ mapSet m k v) : kv = (k, v) ∨ kv ∈ m := by
  induction m with
  | nil => simpa [mapSet] using h
  | cons e m ih =>
    obtain ⟨k', v'⟩ := e
    by_cases hk : k' = k
    · simp [mapSet, hk] at h
      rcases h with h | h
      · exact Or.inl h
      · exact Or.inr (List.mem_cons_of_mem _ h)
    · simp [mapSet, hk] at h
      rcases h with h | h
      · exact Or.inr (by simp [h])
      · rcases ih h with h | h
        · exact Or.inl h
        · exact Or.inr (List.mem_cons_of_mem _ h)

theorem boundedBy_mono (m : List (String × List Nat)) (n n' : Nat) (hn : n ≤ n')
    (h : boundedBy m n) : boundedBy m n' :=
  fun kv hkv i hi => Nat.lt_of_lt_of_le (h kv hkv i hi) hn

theorem boundedBy_mapSet (m : List (String × List Nat)) (n : Nat) (k : String) (l : List Nat)
    (h : boundedBy m n) (hl : ∀ i ∈ l, i < n) : boundedBy (mapSet m k l) n := by
  intro kv hkv i hi
  rcases mem_mapSet m k l kv hkv with e | e
  · subst e
    exact hl i hi
  · exact h kv e i hi

theorem initWatchKey_bounded {T J : Type} (c : ApolloConfd T J) (group : Group)
    (onChange fullKey : String) (h : boundedBy c.fileWatchGroup c.watchGroups.length) :
    boundedBy (initWatchKey c group onChange fullKey).fileWatchGroup
      (initWatchKey c group onChange fullKey).watchGroups.length := by
  have h' : boundedBy c.fileWatchGroup (c.watchGroups.length + 1) :=
    boundedBy_mono _ _ _ (Nat.le_succ _) h
  simp only [initWatchKey, List.length_append, List.length_singleton]
  cases hget : mapGet c.fileWatchGroup fullKey with
  | none =>
    simp only
    apply boundedBy_mapSet
    · apply boundedBy_mapSet _ _ _ _ h'
      simp
    · intro i hi
      simp [mapGet_mapSet_self] at hi
      omega
  | some cur =>
    simp only [hget, Option.getD_some]
    apply boundedBy_mapSet _ _ _ _ h'
    intro i hi
    rcases List.mem_append.mp hi with hi | hi
    · exact h' _ (mem_of_mapGet _ _ _ hget) i hi
    · simp at hi
      omega

theorem foldl_invariant {α β : Type} (P : β → Prop) (f : β → α → β)
    (hf : ∀ b a, P b → P (f b a)) (l : List α) (b : β) (hb : P b) : P (l.foldl f b) := by
  induction l generalizing b with
  | nil => exact hb
  | cons a l ih => exact ih (f b a) (hf b a hb)

theorem InitWatch_bounded {T J : Type} (c : ApolloConfd T J) (config : WatchConfig)
    (h : boundedBy c.fileWatchGroup c.watchGroups.length) :
    boundedBy (InitWatch c config).fileWatchGroup (InitWatch c config).watchGroups.length := by
  unfold InitWatch
  apply foldl_invariant (fun c : ApolloConfd T J => boundedBy c.fileWatchGroup c.watchGroups.length)
  · intro b group hb
    apply foldl_invariant
      (fun c : ApolloConfd T J => boundedBy c.fileWatchGroup c.watchGroups.length)
    · intro b' fullKey hb'
      exact initWatchKey_bounded b' group config.OnChange fullKey hb'
    · exact hb
  · exact h

theorem sameWatch_refl {T J : Type} (c : ApolloConfd T J) : sameWatch c c :=
  ⟨rfl, rfl, rfl⟩

theorem sameWatch_trans {T J : Type} {c1 c2 c3 : ApolloConfd T J} (h12 : sameWatch c1 c2)
    (h23 : sameWatch c2 c3) : sameWatch c1 c3 :=
  ⟨h23.1.trans h12.1, h23.2.1.trans h12.2.1, h23.2.2.trans h12.2.2⟩

theorem renderAndSave_sameWatch {T J : Type} (env : Env T J) (c : ApolloConfd T J)
    (fullKey target : String) : sameWatch c (renderAndSave env c fullKey target).1 := by
  unfold renderAndSave
  dsimp only
  repeat' split
  all_goals exact ⟨rfl, rfl, rfl⟩

theorem osRemove_sameWatch {T J : Type} (env : Env T J) (c : ApolloConfd T J)
    (filePath : String) : sameWatch c (osRemove env c filePath) := by
  unfold osRemove
  split <;> exact ⟨rfl, rfl, rfl⟩

theorem loadTemplate_sameWatch {T J : Type} (env : Env T J) (c : ApolloConfd T J)
    (fullKey text : String) : sameWatch c (loadTemplate env c fullKey text).1 :=
  ⟨rfl, rfl, rfl⟩

theorem InitNamespace_sameWatch {T J : Type} (env : Env T J) (c : ApolloConfd T J)
    (ns : String) : sameWatch c (InitNamespace env c ns).1 := by
  unfold InitNamespace
  dsimp only
  split
  · cases mapGet (env.cache ns) "content" with
    | none => exact sameWatch_refl c
    | some v =>
      dsimp only
      unfold saveJSONData
      cases env.unmarshal v <;> exact ⟨rfl, rfl, rfl⟩
  · apply foldl_invariant (fun c' : ApolloConfd T J => sameWatch c c')
    · intro b kv hb
      exact sameWatch_trans hb (loadTemplate_sameWatch env b _ _)
    · exact sameWatch_refl c

theorem getElem?_of_lt (l : List watchGroup) (i : Nat) (h : i < l.length) :
    ∃ g, l[i]? = some g :=
  ⟨l[i], List.getElem?_eq_getElem h⟩

theorem loadAllIndices_ok {T J : Type} (env : Env T J) (fullKey : String) :
    ∀ (idxs : List Nat) (c : ApolloConfd T J) (ch : Bool),
      (∀ i ∈ idxs, i < c.watchGroups.length) →
      ∃ r, loadAllIndices env fullKey (c, ch) idxs = some r ∧ sameWatch c r.1
  | [], c, ch, _ => ⟨(c, ch), rfl, sameWatch_refl c⟩
  | i :: rest, c, ch, h => by
    obtain ⟨g, hg⟩ := getElem?_of_lt c.watchGroups i (h i (by simp))
    have hs := renderAndSave_sameWatch env c fullKey g.path
    have hrest : ∀ j ∈ rest, j < (renderAndSave env c fullKey g.path).1.watchGroups.length := by
      rw [hs.1]
      intro j hj
      exact h j (List.mem_cons_of_mem _ hj)
    simp only [loadAllIndices, hg]
    split
    · obtain ⟨r, hr, hsr⟩ := loadAllIndices_ok env fullKey rest _ ch hrest
      exact ⟨r, hr, sameWatch_trans hs hsr⟩
    · obtain ⟨r, hr, hsr⟩ := loadAllIndices_ok env fullKey rest _
        (if (renderAndSave env c fullKey g.path).2.1 then true else ch) hrest
      exact ⟨r, hr, sameWatch_trans hs hsr⟩

theorem loadAllKeys_ok {T J : Type} (env : Env T J) :
    ∀ (m : List (String × List Nat)) (c : ApolloConfd T J) (ch : Bool),
      boundedBy m c.watchGroups.length →
      ∃ r, loadAllKeys env (c, ch) m = some r ∧ sameWatch c r.1
  | [], c, ch, _ => ⟨(c, ch), rfl, sameWatch_refl c⟩
  | (fullKey, idxs) :: rest, c, ch, h => by
    obtain ⟨r, hr, hsr⟩ := loadAllIndices_ok env fullKey idxs c ch (h (fullKey, idxs) (by simp))
    have hrest : boundedBy rest r.1.watchGroups.length := by
      rw [hsr.1]
      intro kv hkv
      exact h kv (List.mem_cons_of_mem _ hkv)
    obtain ⟨r', hr', hsr'⟩ := loadAllKeys_ok env rest r.1 r.2 hrest
    refine ⟨r', ?_, sameWatch_trans hsr hsr'⟩
    simp only [loadAllKeys, hr]
    exact hr'

theorem LoadAll_ok {T J : Type} (env : Env T J) (c : ApolloConfd T J)
    (h : boundedBy c.fileWatchGroup c.watchGroups.length) :
    ∃ r, LoadAll env c = some r ∧ sameWatch c r.1 :=
  loadAllKeys_ok env c.fileWatchGroup c false h

theorem loadAllIndices_sameWatch {T J : Type} (env : Env T J) (fullKey : String) :
    ∀ (idxs : List Nat) (c : ApolloConfd T J) (ch : Bool) (r : ApolloConfd T J × Bool),
      loadAllIndices env fullKey (c, ch) idxs = some r → sameWatch c r.1
  | [], c, ch, r, h => by
    simp only [loadAllIndices, Option.some.injEq] at h
    subst h
    exact sameWatch_refl c
  | i :: rest, c, ch, r, h => by
    cases hg : c.watchGroups[i]? with
    | none => simp [loadAllIndices, hg] at h
    | some g =>
      have hs := renderAndSave_sameWatch env c fullKey g.path
      simp only [loadAllIndices, hg] at h
      split at h
      · exact sameWatch_trans hs (loadAllIndices_sameWatch env fullKey rest _ _ r h)
      · exact sameWatch_trans hs (loadAllIndices_sameWatch env fullKey rest _ _ r h)

theorem loadAllKeys_sameWatch {T J : Type} (env : Env T J) :
    ∀ (m : List (String × List Nat)) (c : ApolloConfd T J) (ch : Bool)
      (r : ApolloConfd T J × Bool),
      loadAllKeys env (c, ch) m = some r → sameWatch c r.1
  | [], c, ch, r, h => by
    simp only [loadAllKeys, Option.some.injEq] at h
    subst h
    exact sameWatch_refl c
  | (fullKey, idxs) :: rest, c, ch, r, h => by
    cases h1 : loadAllIndices env fullKey (c, ch) idxs with
    | none => simp [loadAllKeys, h1] at h
    | some r1 =>
      simp only [loadAllKeys, h1] at h
      exact sameWatch_trans (loadAllIndices_sameWatch env fullKey idxs c ch r1 h1)
        (loadAllKeys_sameWatch env rest r1.1 r1.2 r h)

theorem LoadAll_sameWatch {T J : Type} (env : Env T J) (c : ApolloConfd T J)
    (r : ApolloConfd T J × Bool) (h : LoadAll env c = some r) : sameWatch c r.1 :=
  loadAllKeys_sameWatch env c.fileWatchGroup c false r h

theorem removeGroups_ok {T J : Type} (env : Env T J) (key : String) :
    ∀ (idxs : List Nat) (d : Dispatch T J),
      (∀ i ∈ idxs, i < d.c.watchGroups.length) →
      ∃ d', removeGroups env key d idxs = some d' ∧ sameWatch d.c d'.c ∧
        d'.dataChanged = d.dataChanged
  | [], d, _ => ⟨d, rfl, sameWatch_refl d.c, rfl⟩
  | i :: rest, d, h => by
    obtain ⟨g, hg⟩ := getElem?_of_lt d.c.watchGroups i (h i (by simp))
    have hs := osRemove_sameWatch env d.c (removePath key g.path)
    have hrest : ∀ j ∈ rest, j < (osRemove env d.c (removePath key g.path)).watchGroups.length := by
      rw [hs.1]
      intro j hj
      exact h j (List.mem_cons_of_mem _ hj)
    obtain ⟨d', hd', hsd', hdc⟩ := removeGroups_ok env key rest
      { d with c := osRemove env d.c (removePath key g.path)
               changedGroups := mapSet d.changedGroups i g } hrest
    refine ⟨d', ?_, sameWatch_trans hs hsd', hdc⟩
    simp only [removeGroups, hg]
    exact hd'

theorem renderGroups_ok {T J : Type} (env : Env T J) (fullKey : String) :
    ∀ (idxs : List Nat) (d : Dispatch T J),
      (∀ i ∈ idxs, i < d.c.watchGroups.length) →
      ∃ d', renderGroups env fullKey d idxs = some d' ∧ sameWatch d.c d'.c ∧
        d'.dataChanged = d.dataChanged
  | [], d, _ => ⟨d, rfl, sameWatch_refl d.c, rfl⟩
  | i :: rest, d, h => by
    obtain ⟨g, hg⟩ := getElem?_of_lt d.c.watchGroups i (h i (by simp))
    have hs := renderAndSave_sameWatch env d.c fullKey g.path
    have hrest : ∀ j ∈ rest, j < (renderAndSave env d.c fullKey g.path).1.watchGroups.length := by
      rw [hs.1]
      intro j hj
      exact h j (List.mem_cons_of_mem _ hj)
    simp only [renderGroups, hg]
    split
    · obtain ⟨d', hd', hsd', hdc⟩ := renderGroups_ok env fullKey rest
        { d with c := (renderAndSave env d.c fullKey g.path).1
                 changedGroups := mapSet d.changedGroups i g } hrest
      exact ⟨d', hd', sameWatch_trans hs hsd', hdc⟩
    · obtain ⟨d', hd', hsd', hdc⟩ := renderGroups_ok env fullKey rest
        { d with c := (renderAndSave env d.c fullKey g.path).1 } hrest
      exact ⟨d', hd', sameWatch_trans hs hsd', hdc⟩

/-- Under the bounds invariant one iteration of the loop of `OnChange` does not
panic, and it leaves the watch groups and the index as they are. -/
theorem onChangeEntry_ok {T J : Type} (env : Env T J) (event : ChangeEvent) (d : Dispatch T J)
    (key : String) (change : ConfigChange)
    (h : boundedBy d.c.fileWatchGroup d.c.watchGroups.length) :
    (∃ d', onChangeEntry env event d key change = .next d' ∧ sameWatch d.c d'.c) ∨
      onChangeEntry env event d key change = .done d.c := by
  unfold onChangeEntry
  dsimp only
  cases hct : change.ChangeType
  · -- ADDED
    dsimp only
    split
    · exact Or.inl ⟨_, rfl, InitNamespace_sameWatch env d.c event.Namespace⟩
    · cases hget : mapGet d.c.fileWatchGroup (joinKey event.Namespace key) with
      | none => exact Or.inl ⟨d, rfl, sameWatch_refl d.c⟩
      | some idxs =>
        dsimp only
        obtain ⟨d', hd', hsd', _⟩ := renderGroups_ok env (joinKey event.Namespace key) idxs
          { d with c := (loadTemplate env d.c (joinKey event.Namespace key) change.NewValue).1 }
          (h _ (mem_of_mapGet _ _ _ hget))
        rw [hd']
        exact Or.inl ⟨d', rfl, hsd'⟩
  · -- MODIFIED
    dsimp only
    split
    · exact Or.inl ⟨_, rfl, InitNamespace_sameWatch env d.c event.Namespace⟩
    · cases hget : mapGet d.c.fileWatchGroup (joinKey event.Namespace key) with
      | none => exact Or.inl ⟨d, rfl, sameWatch_refl d.c⟩
      | some idxs =>
        dsimp only
        obtain ⟨d', hd', hsd', _⟩ := renderGroups_ok env (joinKey event.Namespace key) idxs
          { d with c := (loadTemplate env d.c (joinKey event.Namespace key) change.NewValue).1 }
          (h _ (mem_of_mapGet _ _ _ hget))
        rw [hd']
        exact Or.inl ⟨d', rfl, hsd'⟩
  · -- DELETED
    dsimp only
    split
    · split
      · exact Or.inr rfl
      · exact Or.inl ⟨_, rfl, ⟨rfl, rfl, rfl⟩⟩
    · cases hget : mapGet d.c.fileWatchGroup (joinKey event.Namespace key) with
      | none => exact Or.inl ⟨d, rfl, sameWatch_refl d.c⟩
      | some idxs =>
        dsimp only
        obtain ⟨d', hd', hsd', _⟩ := removeGroups_ok env key idxs d
          (h _ (mem_of_mapGet _ _ _ hget))
        rw [hd']
        exact Or.inl ⟨d', rfl, hsd'⟩
  · exact Or.inl ⟨d, rfl, sameWatch_refl d.c⟩

theorem onChangeLoop_ok {T J : Type} (env : Env T J) (event : ChangeEvent) :
    ∀ (l : List (String × ConfigChange)) (d : Dispatch T J),
      boundedBy d.c.fileWatchGroup d.c.watchGroups.length →
      (∃ d', onChangeLoop env event d l = .next d' ∧ sameWatch d.c d'.c) ∨
        (∃ c', onChangeLoop env event d l = .done c')
  | [], d, _ => Or.inl ⟨d, rfl, sameWatch_refl d.c⟩
  | (key, change) :: rest, d, h => by
    rcases onChangeEntry_ok env event d key change h with ⟨d1, h1, hs1⟩ | h1
    · have hb : boundedBy d1.c.fileWatchGroup d1.c.watchGroups.length := by
        rw [hs1.1, hs1.2.1]
        exact h
      simp only [onChangeLoop, h1]
      rcases onChangeLoop_ok env event rest d1 hb with ⟨d2, h2, hs2⟩ | ⟨c', h2⟩
      · exact Or.inl ⟨d2, h2, sameWatch_trans hs1 hs2⟩
      · exact Or.inr ⟨c', h2⟩
    · exact Or.inr ⟨d.c, by simp only [onChangeLoop, h1]⟩

theorem reloadIfDataChanged_ok {T J : Type} (env : Env T J) (d : Dispatch T J)
    (h : boundedBy d.c.fileWatchGroup d.c.watchGroups.length) :
    ∃ d', reloadIfDataChanged env d = some d' := by
  unfold reloadIfDataChanged
  obtain ⟨r, hr, _⟩ := LoadAll_ok env d.c h
  obtain ⟨c', ch⟩ := r
  rw [hr]
  dsimp only
  split
  · split
    · exact ⟨_, rfl⟩
    · exact ⟨_, rfl⟩
  · exact ⟨_, rfl⟩

/-- Under the bounds invariant `OnChange` does not panic. -/
theorem OnChange_ok {T J : Type} (env : Env T J) (c : ApolloConfd T J) (event : ChangeEvent)
    (h : boundedBy c.fileWatchGroup c.watchGroups.length) :
    (OnChange env c event).isSome = true := by
  unfold OnChange affected
  rcases onChangeLoop_ok env event event.Changes
    { c := c, dataChanged := false, changedGroups := [] } h with ⟨d, hd, hs⟩ | ⟨c', hc'⟩
  · have hb : boundedBy d.c.fileWatchGroup d.c.watchGroups.length := by
      rw [hs.1, hs.2.1]
      exact h
    obtain ⟨d', hd'⟩ := reloadIfDataChanged_ok env d hb
    simp only [hd, hd', Option.isSome_some]
  · simp only [hc', Option.isSome_some]

/-- Claim C10: starting from a freshly constructed state and after any
sequence of `InitWatch` calls, every index stored in `fileWatchGroup` is
below `len(watchGroups)`; hence, whatever templates, data and files the state
holds by then, neither `LoadAll` nor `OnChange` panics on an out-of-range
`c.watchGroups[index]`. -/
theorem InitWatch_index_in_range {T J : Type} (env : Env T J) (files : List (String × Bytes))
    (configs : List WatchConfig) :
    boundedBy (configs.foldl InitWatch (fresh env files)).fileWatchGroup
        (configs.foldl InitWatch (fresh env files)).watchGroups.length ∧
      ∀ (env' : Env T J) (tpl : T) (data : List (String × J)) (files' : List (String × Bytes))
        (started : List String),
        (LoadAll env' { configs.foldl InitWatch (fresh env files) with
            tpl := tpl, data := data, files := files', started := started }).isSome = true ∧
        ∀ event : ChangeEvent,
          (OnChange env' { configs.foldl InitWatch (fresh env files) with
            tpl := tpl, data := data, files := files', started := started } event).isSome = true := by
  have hinv : boundedBy (configs.foldl InitWatch (fresh env files)).fileWatchGroup
      (configs.foldl InitWatch (fresh env files)).watchGroups.length := by
    apply foldl_invariant (fun c : ApolloConfd T J => boundedBy c.fileWatchGroup c.watchGroups.length)
    · intro b config hb
      exact InitWatch_bounded b config hb
    · intro kv hkv
      simp [fresh] at hkv
  refine ⟨hinv, ?_⟩
  intro env' tpl data files' started
  constructor
  · obtain ⟨r, hr, _⟩ := LoadAll_ok env' { configs.foldl InitWatch (fresh env files) with
      tpl := tpl, data := data, files := files', started := started } hinv
    rw [hr]
    rfl
  · intro event
    exact OnChange_ok env' _ event hinv

/-! ## Data namespaces: global fan-out -/

/-- In a data namespace the loop of `OnChange` marks no group; it sets
`dataChanged` as soon as one entry is an addition, a modification or a
deletion. -/
theorem onChangeLoop_data {T J : Type} (env : Env T J) (event : ChangeEvent)
    (hdata : isDataNamespace event.Namespace = true) (hne : event.Changes.length ≠ 0) :
    ∀ (l : List (String × ConfigChange)) (d : Dispatch T J),
      ∃ c1, onChangeLoop env event d l =
          .next { c := c1,
                  dataChanged :=
                    d.dataChanged || l.any (fun kv => decide (kv.2.ChangeType ≠ .OTHER)),
                  changedGroups := d.changedGroups } ∧
        sameWatch d.c c1
  | [], d => ⟨d.c, by simp [onChangeLoop], sameWatch_refl d.c⟩
  | (key, change) :: rest, d => by
    cases hct : change.ChangeType
    · obtain ⟨c1, h1, hs1⟩ := onChangeLoop_data env event hdata hne rest
        { d with c := (InitNamespace env d.c event.Namespace).1, dataChanged := true }
      refine ⟨c1, ?_, sameWatch_trans (InitNamespace_sameWatch env d.c event.Namespace) hs1⟩
      simp only [onChangeLoop, onChangeEntry, hct, hdata, if_true, h1]
      simp [hct]
    · obtain ⟨c1, h1, hs1⟩ := onChangeLoop_data env event hdata hne rest
        { d with c := (InitNamespace env d.c event.Namespace).1, dataChanged := true }
      refine ⟨c1, ?_, sameWatch_trans (InitNamespace_sameWatch env d.c event.Namespace) hs1⟩
      simp only [onChangeLoop, onChangeEntry, hct, hdata, if_true, h1]
      simp [hct]
    · obtain ⟨c1, h1, hs1⟩ := onChangeLoop_data env event hdata hne rest
        { d with c := removeData d.c (TrimSuffix event.Namespace ".json"), dataChanged := true }
      refine ⟨c1, ?_, sameWatch_trans ⟨rfl, rfl, rfl⟩ hs1⟩
      simp only [onChangeLoop, onChangeEntry, hct, hdata, if_true, hne, if_false, h1]
      simp [hct]
    · obtain ⟨c1, h1, hs1⟩ := onChangeLoop_data env event hdata hne rest d
      refine ⟨c1, ?_, hs1⟩
      simp only [onChangeLoop, onChangeEntry, hct, h1]
      simp [hct]

theorem mapSet_fresh {K V : Type} [DecidableEq K] (m : List (K × V)) (k : K) (v : V)
    (h : ∀ kv ∈ m, kv.1 ≠ k) : mapSet m k v = m ++ [(k, v)] := by
  induction m with
  | nil => rfl
  | cons e m ih =>
    obtain ⟨k', v'⟩ := e
    have hk : k' ≠ k := h (k', v') (by simp)
    have hm : ∀ kv ∈ m, kv.1 ≠ k := fun kv hkv => h kv (List.mem_cons_of_mem _ hkv)
    simp [mapSet, hk, ih hm]

theorem markAll_eq (wgs : List watchGroup) :
    ∀ (m : List (Nat × watchGroup)) (i : Nat), (∀ kv ∈ m, kv.1 < i) →
      markAll m i wgs = m ++ wgs.enumFrom i := by
  induction wgs with
  | nil => intro m i _; simp [markAll]
  | cons g rest ih =>
    intro m i h
    have hfresh : ∀ kv ∈ m, kv.1 ≠ i := fun kv hkv => Nat.ne_of_lt (h kv hkv)
    have hnext : ∀ kv ∈ m ++ [(i, g)], kv.1 < i + 1 := by
      intro kv hkv
      rcases List.mem_append.mp hkv with hkv | hkv
      · exact Nat.lt_succ_of_lt (h kv hkv)
      · simp at hkv
        simp [hkv]
    simp only [markAll, mapSet_fresh m i g hfresh, ih _ _ hnext, List.enumFrom_cons,
      List.append_assoc, List.singleton_append]

theorem fireHooks_started {T J : Type} :
    ∀ (l : List (Nat × watchGroup)) (c : ApolloConfd T J),
      (fireHooks c l).started =
        c.started ++ (l.filter (fun kv => decide (kv.2.onChange ≠ ""))).map (fun kv => kv.2.onChange)
  | [], c => by simp [fireHooks]
  | (i, g) :: rest, c => by
    by_cases hg : g.onChange = ""
    · simp [fireHooks, hg, fireHooks_started rest c]
    · simp [fireHooks, hg, fireHooks_started rest]

theorem enumFrom_filter_map (wgs : List watchGroup) (p : watchGroup → Bool)
    (f : watchGroup → String) :
    ∀ i : Nat, ((wgs.enumFrom i).filter (fun kv => p kv.2)).map (fun kv => f kv.2) =
      (wgs.filter p).map f := by
  induction wgs with
  | nil => intro i; rfl
  | cons g rest ih =>
    intro i
    by_cases hp : p g = true
    · simp [List.enumFrom_cons, List.filter_cons, hp, ih (i + 1)]
    · simp [List.enumFrom_cons, List.filter_cons, hp, ih (i + 1)]

/-- Claim C9: for a change batch of a data namespace with at least one added,
modified or deleted entry, the loop marks no group and sets `dataChanged`; if
the `LoadAll` that follows reports `changed = true`, the affected set holds
every index `0 .. len(watchGroups)-1` once, with its record, and the commands
started are the non-empty commands of the records, one start per record; if
`LoadAll` reports `changed = false`, no command is started. -/
theorem OnChange_data_fanout {T J : Type} (env : Env T J) (c : ApolloConfd T J)
    (event : ChangeEvent) (hdata : isDataNamespace event.Namespace = true)
    (hentry : ∃ kv ∈ event.Changes, kv.2.ChangeType ≠ ChangeType.OTHER) :
    ∃ c1, onChangeLoop env event { c := c, dataChanged := false, changedGroups := [] }
          event.Changes = .next { c := c1, dataChanged := true, changedGroups := [] } ∧
      (∀ c2, LoadAll env c1 = some (c2, true) →
        c2.watchGroups = c.watchGroups ∧
        affected env c event =
          .next { c := c2, dataChanged := true, changedGroups := c.watchGroups.enum } ∧
        c.watchGroups.enum.map Prod.fst = List.range c.watchGroups.length ∧
        ∃ c3, OnChange env c event = some c3 ∧
          c3.started = c.started ++
            (c.watchGroups.filter (fun g => decide (g.onChange ≠ ""))).map (fun g => g.onChange)) ∧
      (∀ c2, LoadAll env c1 = some (c2, false) →
        OnChange env c event = some c2 ∧ c2.started = c.started) := by
  obtain ⟨kv, hkv, hty⟩ := hentry
  have hne : event.Changes.length ≠ 0 := by
    intro h0
    rw [List.length_eq_zero.mp h0] at hkv
    simp at hkv
  obtain ⟨c1, h1, hs1⟩ := onChangeLoop_data env event hdata hne event.Changes
    { c := c, dataChanged := false, changedGroups := [] }
  have hany : event.Changes.any (fun kv => decide (kv.2.ChangeType ≠ .OTHER)) = true :=
    List.any_eq_true.mpr ⟨kv, hkv, by simpa using hty⟩
  simp only [Bool.false_or, hany] at h1
  refine ⟨c1, h1, ?_, ?_⟩
  · intro c2 h2
    have hs2 := sameWatch_trans hs1 (LoadAll_sameWatch env c1 _ h2)
    have hwg : c2.watchGroups = c.watchGroups := hs2.1
    have haff : affected env c event =
        .next { c := c2, dataChanged := true, changedGroups := c.watchGroups.enum } := by
      simp only [affected, h1, reloadIfDataChanged, if_true, h2, hwg]
      rw [markAll_eq c.watchGroups [] 0 (by simp)]
      rfl
    refine ⟨hwg, haff, List.enum_map_fst _, fireHooks c2 c.watchGroups.enum, ?_, ?_⟩
    · simp only [OnChange, haff]
    · rw [fireHooks_started, hs2.2.2]
      congr 1
      exact enumFrom_filter_map c.watchGroups (fun g => decide (g.onChange ≠ ""))
        (fun g => g.onChange) 0
  · intro c2 h2
    have hs2 := sameWatch_trans hs1 (LoadAll_sameWatch env c1 _ h2)
    refine ⟨?_, hs2.2.2⟩
    simp only [OnChange, affected, h1, reloadIfDataChanged, if_true, h2]
    simp [fireHooks]

/-- Claim C9 on a state that watches `app:a` and a modification of the data
namespace `config.json`. -/
theorem OnChange_data_fanout_witness :
    isDataNamespace dataEvent.Namespace = true ∧
      (∃ kv ∈ dataEvent.Changes, kv.2.ChangeType ≠ ChangeType.OTHER) ∧
      ∃ c1, onChangeLoop toyEnv dataEvent
          { c := staleTemplateState, dataChanged := false, changedGroups := [] }
          dataEvent.Changes = .next { c := c1, dataChanged := true, changedGroups := [] } :=
  ⟨by decide, by decide,
    (OnChange_data_fanout toyEnv staleTemplateState dataEvent (by decide) (by decide)).imp
      (fun _ h => h.1)⟩

/-- The data scenario evaluated: after start-up the files hold the template
texts; the data change re-renders both, and each of the two records has its
command started once. -/
theorem OnChange_data_scenario :
    twoKeyLoaded.map (fun c => c.files) = some [("/out/a", ascii "x"), ("/out/b", ascii "y")] ∧
      (twoKeyLoaded.bind (fun c => OnChange toyEnv c dataEvent)).map
          (fun c => (c.files, c.started)) =
        some ([("/out/a", ascii "xworld"), ("/out/b", ascii "yworld")],
              ["/bin/reload", "/bin/reload"]) := by
  decide

/-! ## Template texts that fail to parse -/

/-- Claim C7, as stated, fails: the state holds the template `hello` for the
watched address `app:a` and the target file is absent; a modification whose
text does not parse is still followed by a render of the registered group,
which writes the file, reports a change, marks index `0` and starts the
command. -/
theorem OnChange_parse_failure_counterexample :
    isDataNamespace badTemplateEvent.Namespace = false ∧
      mapGet staleTemplateState.fileWatchGroup (joinKey "app" "a") = some [0] ∧
      staleTemplateState.files = [] ∧
      (loadTemplate toyEnv staleTemplateState (joinKey "app" "a") "\x7b\x7bbad").2 = true ∧
      (match affected toyEnv staleTemplateState badTemplateEvent with
        | .next d => d.changedGroups.map (fun kv => kv.1)
        | _ => []) = [0] ∧
      (OnChange toyEnv staleTemplateState badTemplateEvent).map (fun c => (c.files, c.started)) =
        some ([("/out/a", ascii "hello")], ["/bin/reload"]) := by
  decide

theorem mapGet_mapSet {K V : Type} [DecidableEq K] (m : List (K × V)) (k k' : K) (v : V) :
    mapGet (mapSet m k v) k' = if k = k' then some v else mapGet m k' := by
  induction m with
  | nil => simp [mapSet, mapGet]
  | cons e m ih =>
    obtain ⟨k0, v0⟩ := e
    by_cases h0 : k0 = k
    · subst h0
      by_cases h1 : k0 = k' <;> simp [mapSet, mapGet, h1]
    · by_cases h1 : k0 = k'
      · subst h1
        have : ¬ k = k0 := fun e => h0 e.symm
        simp [mapSet, mapGet, h0, this]
      · simp [mapSet, mapGet, h0, h1, ih]

theorem renderGroups_cons {T J : Type} (env : Env T J) (fullKey : String) (d : Dispatch T J)
    (x : Nat) (rest : List Nat) (g : watchGroup) (hg : d.c.watchGroups[x]? = some g) :
    renderGroups env fullKey d (x :: rest) =
      renderGroups env fullKey (renderStep env fullKey d x g) rest := by
  simp only [renderGroups, hg, renderStep]
  split <;> rfl

theorem renderStep_marks {T J : Type} (env : Env T J) (fullKey : String) (d : Dispatch T J)
    (x : Nat) (g : watchGroup) (i : Nat) :
    (mapGet (renderStep env fullKey d x g).changedGroups i).isSome = true ↔
      ((mapGet d.changedGroups i).isSome = true ∨
        (x = i ∧ (renderAndSave env d.c fullKey g.path).2.1 = true)) := by
  unfold renderStep
  by_cases hch : (renderAndSave env d.c fullKey g.path).2.1 = true
  · simp only [hch, if_true, mapGet_mapSet]
    by_cases hx : x = i
    · simp [hx]
    · simp [hx]
  · simp [hch]

/-- After the group loop an index is marked exactly when it was marked before
or one of its renders, each run on the state its predecessors left, reported
changed content. -/
theorem renderGroups_marks {T J : Type} (env : Env T J) (fullKey : String) :
    ∀ (idxs : List Nat) (d d' : Dispatch T J), renderGroups env fullKey d idxs = some d' →
      ∀ i : Nat, (mapGet d'.changedGroups i).isSome = true ↔
        ((mapGet d.changedGroups i).isSome = true ∨
          ∃ (j : Nat) (dj : Dispatch T J) (g : watchGroup),
            idxs[j]? = some i ∧ renderGroups env fullKey d (idxs.take j) = some dj ∧
              dj.c.watchGroups[i]? = some g ∧
              (renderAndSave env dj.c fullKey g.path).2.1 = true)
  | [], d, d', h, i => by
    simp only [renderGroups, Option.some.injEq] at h
    subst h
    simp
  | x :: rest, d, d', h, i => by
    cases hg : d.c.watchGroups[x]? with
    | none => simp [renderGroups, hg] at h
    | some g0 =>
      rw [renderGroups_cons env fullKey d x rest g0 hg] at h
      have ih := renderGroups_marks env fullKey rest _ d' h i
      rw [ih, renderStep_marks]
      constructor
      · rintro ((hm | ⟨hx, hch⟩) | ⟨j, dj, g, hj, hdj, hgj, hch⟩)
        · exact Or.inl hm
        · subst hx
          exact Or.inr ⟨0, d, g0, by simp, by simp [renderGroups], hg, hch⟩
        · refine Or.inr ⟨j + 1, dj, g, by simpa using hj, ?_, hgj, hch⟩
          rw [List.take_succ_cons, renderGroups_cons env fullKey d x _ g0 hg]
          exact hdj
      · rintro (hm | ⟨j, dj, g, hj, hdj, hgj, hch⟩)
        · exact Or.inl (Or.inl hm)
        · cases j with
          | zero =>
            simp only [List.take_zero, renderGroups, Option.some.injEq] at hdj
            subst hdj
            have hx : x = i := by simpa using hj
            subst hx
            rw [hg] at hgj
            cases hgj
            exact Or.inl (Or.inr ⟨rfl, hch⟩)
          | succ j =>
            rw [List.take_succ_cons, renderGroups_cons env fullKey d x _ g0 hg] at hdj
            exact Or.inr ⟨j, dj, g, by simpa using hj, hdj, hgj, hch⟩

/-- Claim C7 (amended): in `OnChange`, for an added or modified entry of a
template namespace whose address has registered groups (all in range), a new
template text that fails to parse is only logged: the registered groups are
still rendered in order, on the template set the failed parse left, and a
group index is marked affected on account of the entry exactly when one of
its renders reports changed content. -/
theorem onChangeEntry_parse_failure {T J : Type} (env : Env T J) (event : ChangeEvent)
    (d : Dispatch T J) (key : String) (change : ConfigChange) (idxs : List Nat)
    (hty : change.ChangeType = .ADDED ∨ change.ChangeType = .MODIFIED)
    (htpl : isDataNamespace event.Namespace = false)
    (hreg : mapGet d.c.fileWatchGroup (joinKey event.Namespace key) = some idxs)
    (hb : ∀ i ∈ idxs, i < d.c.watchGroups.length)
    (_hfail : (loadTemplate env d.c (joinKey event.Namespace key) change.NewValue).2 = true) :
    ∃ d', onChangeEntry env event d key change = .next d' ∧
      renderGroups env (joinKey event.Namespace key)
        { d with c := (loadTemplate env d.c (joinKey event.Namespace key) change.NewValue).1 }
        idxs = some d' ∧
      ∀ i : Nat, (mapGet d'.changedGroups i).isSome = true ↔
        ((mapGet d.changedGroups i).isSome = true ∨
          ∃ (j : Nat) (dj : Dispatch T J) (g : watchGroup),
            idxs[j]? = some i ∧
              renderGroups env (joinKey event.Namespace key)
                { d with
                  c := (loadTemplate env d.c (joinKey event.Namespace key) change.NewValue).1 }
                (idxs.take j) = some dj ∧
              dj.c.watchGroups[i]? = some g ∧
              (renderAndSave env dj.c (joinKey event.Namespace key) g.path).2.1 = true) := by
  obtain ⟨d', hd', _, _⟩ := renderGroups_ok env (joinKey event.Namespace key) idxs
    { d with c := (loadTemplate env d.c (joinKey event.Namespace key) change.NewValue).1 } hb
  refine ⟨d', ?_, hd', ?_⟩
  · rcases hty with hty | hty
    · simp only [onChangeEntry, hty, htpl, hreg, hd']
      simp
    · simp only [onChangeEntry, hty, htpl, hreg, hd']
      simp
  · exact renderGroups_marks env (joinKey event.Namespace key) idxs _ d' hd'

/-- Claim C7 (amended) on the state with the template `hello` and the
modification of `app:a` to a text that does not parse. -/
theorem onChangeEntry_parse_failure_witness :
    isDataNamespace badTemplateEvent.Namespace = false ∧
      (loadTemplate toyEnv staleTemplateState (joinKey badTemplateEvent.Namespace "a")
        "\x7b\x7bbad").2 = true ∧
      ∃ d', onChangeEntry toyEnv badTemplateEvent
        { c := staleTemplateState, dataChanged := false, changedGroups := [] } "a"
        { ChangeType := .MODIFIED, NewValue := "\x7b\x7bbad" } = .next d' :=
  ⟨by decide, by decide,
    (onChangeEntry_parse_failure toyEnv badTemplateEvent
      { c := staleTemplateState, dataChanged := false, changedGroups := [] } "a"
      { ChangeType := .MODIFIED, NewValue := "\x7b\x7bbad" } [0]
      (Or.inr rfl) (by decide) (by decide) (by decide) (by decide)).imp (fun _ h => h.1)⟩

/-! ## Deletion in a template namespace -/

theorem mem_keys_mapDelete {K V : Type} [DecidableEq K] (m : List (K × V)) (k k' : K)
    (h : k ∈ (mapDelete m k').map Prod.fst) : k ∈ m.map Prod.fst := by
  induction m with
  | nil => simp [mapDelete] at h
  | cons e m ih =>
    obtain ⟨k0, v0⟩ := e
    by_cases h0 : k0 = k'
    · simp only [mapDelete, h0, if_true] at h
      exact List.mem_cons_of_mem _ h
    · simp only [mapDelete, h0, if_false, List.map_cons, List.mem_cons] at h
      rcases h with h | h
      · simp [h]
      · exact List.mem_cons_of_mem _ (ih h)

theorem nodup_keys_mapDelete {K V : Type} [DecidableEq K] (m : List (K × V)) (k' : K)
    (h : (m.map Prod.fst).Nodup) : ((mapDelete m k').map Prod.fst).Nodup := by
  induction m with
  | nil => simp [mapDelete]
  | cons e m ih =>
    obtain ⟨k0, v0⟩ := e
    simp only [List.map_cons, List.nodup_cons] at h
    by_cases h0 : k0 = k'
    · simp only [mapDelete, h0, if_true]
      exact h.2
    · simp only [mapDelete, h0, if_false, List.map_cons, List.nodup_cons]
      exact ⟨fun hmem => h.1 (mem_keys_mapDelete m k0 k' hmem), ih h.2⟩

theorem not_mem_keys_mapDelete_self {K V : Type} [DecidableEq K] (m : List (K × V)) (k : K)
    (h : (m.map Prod.fst).Nodup) : k ∉ (mapDelete m k).map Prod.fst := by
  induction m with
  | nil => simp [mapDelete]
  | cons e m ih =>
    obtain ⟨k0, v0⟩ := e
    simp only [List.map_cons, List.nodup_cons] at h
    by_cases h0 : k0 = k
    · subst h0
      simp only [mapDelete, if_true]
      exact h.1
    · simp only [mapDelete, h0, if_false, List.map_cons, List.mem_cons, not_or]
      exact ⟨fun e => h0 e.symm, ih h.2⟩

theorem mapGet_none_of_not_mem {K V : Type} [DecidableEq K] (m : List (K × V)) (k : K)
    (h : k ∉ m.map Prod.fst) : mapGet m k = none := by
  induction m with
  | nil => rfl
  | cons e m ih =>
    obtain ⟨k0, v0⟩ := e
    simp only [List.map_cons, List.mem_cons, not_or] at h
    have h0 : ¬ k0 = k := fun e => h.1 e.symm
    simp only [mapGet, h0, if_false]
    exact ih h.2

theorem mem_keys_removeAt {T J : Type} (env : Env T J) (wgs : List watchGroup)
    (pathOf : String → String) (files : List (String × Bytes)) (x : Nat) (k : String)
    (h : k ∈ (removeAt env wgs pathOf files x).map Prod.fst) : k ∈ files.map Prod.fst := by
  unfold removeAt at h
  cases hg : wgs[x]? with
  | none => simpa [hg] using h
  | some g =>
    simp only [hg] at h
    split at h
    · exact h
    · exact mem_keys_mapDelete _ _ _ h

theorem nodup_keys_removeAt {T J : Type} (env : Env T J) (wgs : List watchGroup)
    (pathOf : String → String) (files : List (String × Bytes)) (x : Nat)
    (h : (files.map Prod.fst).Nodup) :
    ((removeAt env wgs pathOf files x).map Prod.fst).Nodup := by
  unfold removeAt
  cases hg : wgs[x]? with
  | none => exact h
  | some g =>
    dsimp only
    split
    · exact h
    · exact nodup_keys_mapDelete _ _ h

theorem not_mem_keys_foldl_removeAt {T J : Type} (env : Env T J) (wgs : List watchGroup)
    (pathOf : String → String) (k : String) :
    ∀ (idxs : List Nat) (files : List (String × Bytes)), k ∉ files.map Prod.fst →
      k ∉ (idxs.foldl (removeAt env wgs pathOf) files).map Prod.fst
  | [], _, h => h
  | x :: rest, files, h =>
    not_mem_keys_foldl_removeAt env wgs pathOf k rest _
      (fun hmem => h (mem_keys_removeAt env wgs pathOf files x k hmem))

/-- After the removals, the path of every listed group whose removal did not
fail holds no file. -/
theorem foldl_removeAt_absent {T J : Type} (env : Env T J) (wgs : List watchGroup)
    (pathOf : String → String) :
    ∀ (idxs : List Nat) (files : List (String × Bytes)), (files.map Prod.fst).Nodup →
      ∀ index ∈ idxs, ∀ g : watchGroup, wgs[index]? = some g →
        env.removeFails (pathOf g.path) = false →
        mapGet (idxs.foldl (removeAt env wgs pathOf) files) (pathOf g.path) = none
  | [], _, _, index, hmem, _, _, _ => by simp at hmem
  | x :: rest, files, hnd, index, hmem, g, hg, hrm => by
    simp only [List.foldl_cons]
    by_cases hin : index ∈ rest
    · exact foldl_removeAt_absent env wgs pathOf rest _
        (nodup_keys_removeAt env wgs pathOf files x hnd) index hin g hg hrm
    · have hx : index = x := by
        rcases List.mem_cons.mp hmem with e | e
        · exact e
        · exact absurd e hin
      subst hx
      apply mapGet_none_of_not_mem
      apply not_mem_keys_foldl_removeAt
      simp only [removeAt, hg, hrm]
      exact not_mem_keys_mapDelete_self _ _ hnd

/-- The group loop of the `DELETED` case: the files it leaves and the indices
it marks. -/
theorem removeGroups_spec {T J : Type} (env : Env T J) (key : String) :
    ∀ (idxs : List Nat) (d d' : Dispatch T J), removeGroups env key d idxs = some d' →
      d'.c.files = idxs.foldl (removeAt env d.c.watchGroups (removePath key)) d.c.files ∧
        ∀ i : Nat, (mapGet d'.changedGroups i).isSome = true ↔
          ((mapGet d.changedGroups i).isSome = true ∨ i ∈ idxs)
  | [], d, d', h => by
    simp only [removeGroups, Option.some.injEq] at h
    subst h
    simp
  | x :: rest, d, d', h => by
    cases hg : d.c.watchGroups[x]? with
    | none => simp [removeGroups, hg] at h
    | some g =>
      simp only [removeGroups, hg] at h
      obtain ⟨hf, hm⟩ := removeGroups_spec env key rest _ d' h
      have hwg : (osRemove env d.c (removePath key g.path)).watchGroups = d.c.watchGroups :=
        (osRemove_sameWatch env d.c (removePath key g.path)).1
      have hstep : (osRemove env d.c (removePath key g.path)).files =
          removeAt env d.c.watchGroups (removePath key) d.c.files x := by
        unfold osRemove removeAt
        simp only [hg]
        split <;> rfl
      constructor
      · rw [hf]
        simp only [List.foldl_cons, hwg, hstep]
      · intro i
        rw [hm i]
        simp only [mapGet_mapSet, List.mem_cons]
        by_cases hx : x = i
        · simp [hx]
        · have hx' : ¬ i = x := fun e => hx e.symm
          simp [hx, hx']

/-- A render that returns without error leaves the rendered output at the
path `renderPath fullKey target`. -/
theorem renderAndSave_writes {T J : Type} (env : Env T J) (c : ApolloConfd T J)
    (fullKey target : String) (hok : (renderAndSave env c fullKey target).2.2 = false) :
    mapGet (renderAndSave env c fullKey target).1.files (renderPath fullKey target) =
      some (env.execute c.tpl fullKey c.data).1 := by
  unfold renderAndSave at hok ⊢
  by_cases h1 : env.mkdirAllFails target = true
  · simp [h1] at hok
  by_cases h2 : env.readFails (renderPath fullKey target) = true
  · simp [h1, fileSha256, h2] at hok
  cases hb : fileSha256 env c.files (renderPath fullKey target) with
  | none => simp [h1, hb] at hok
  | some before =>
    simp only [h1, hb] at hok ⊢
    by_cases h3 : env.openFails (renderPath fullKey target ++ ".inprocess") = true
    · simp [h3] at hok
    simp only [h3] at hok ⊢
    by_cases h4 : (env.execute c.tpl fullKey c.data).2 = true
    · by_cases h5 : env.renameFails (renderPath fullKey target ++ ".inprocess")
          (renderPath fullKey target) = true
      · simp [h4, h5] at hok
      · simp [h4, h5, fileSha256, h2, mapGet_mapSet_self]
    · simp [h4] at hok

/-- Claim C8 (amended): in `OnChange`, for a `Deleted` entry of a template
namespace that contains no `:`, with a non-empty event key `k` whose address
`joinKey ns k` has registered groups (all in range): the key portion used for
removal is the key component of `splitKey (joinKey ns k)`; a render of that
address that returns without error leaves its output at `renderPath`; the
loop body removes, group by group, exactly the file at that path in the
group's target directory and marks every registered group; and, the files
having distinct paths, after it no file is left at that path for any group
whose removal did not fail. -/
theorem onChangeEntry_deleted_removes_rendered {T J : Type} (env : Env T J)
    (event : ChangeEvent) (d : Dispatch T J) (k : String) (change : ConfigChange)
    (idxs : List Nat)
    (hty : change.ChangeType = .DELETED)
    (htpl : isDataNamespace event.Namespace = false)
    (hsep : ':' ∉ event.Namespace.data) (hk : k ≠ "")
    (hreg : mapGet d.c.fileWatchGroup (joinKey event.Namespace k) = some idxs)
    (hb : ∀ i ∈ idxs, i < d.c.watchGroups.length) :
    (splitKey (joinKey event.Namespace k)).2 = k ∧
      (∀ (c : ApolloConfd T J) (target : String),
        (renderAndSave env c (joinKey event.Namespace k) target).2.2 = false →
        mapGet (renderAndSave env c (joinKey event.Namespace k) target).1.files
            (renderPath (joinKey event.Namespace k) target) =
          some (env.execute c.tpl (joinKey event.Namespace k) c.data).1) ∧
      ∃ d', onChangeEntry env event d k change = .next d' ∧
        d'.c.files =
          idxs.foldl (removeAt env d.c.watchGroups (renderPath (joinKey event.Namespace k)))
            d.c.files ∧
        (∀ i : Nat, (mapGet d'.changedGroups i).isSome = true ↔
          ((mapGet d.changedGroups i).isSome = true ∨ i ∈ idxs)) ∧
        ((d.c.files.map Prod.fst).Nodup →
          ∀ index ∈ idxs, ∀ g : watchGroup, d.c.watchGroups[index]? = some g →
            env.removeFails (renderPath (joinKey event.Namespace k) g.path) = false →
            mapGet d'.c.files (renderPath (joinKey event.Namespace k) g.path) = none) := by
  obtain ⟨hkey, hpath⟩ := removePath_renderPath event.Namespace k hsep hk
  refine ⟨hkey, fun c target hok => renderAndSave_writes env c _ target hok, ?_⟩
  obtain ⟨d', hd', _, _⟩ := removeGroups_ok env k idxs d hb
  obtain ⟨hf, hm⟩ := removeGroups_spec env k idxs d d' hd'
  rw [hpath] at hf
  refine ⟨d', ?_, hf, hm, ?_⟩
  · simp only [onChangeEntry, hty, htpl, hreg, hd']
    simp
  · intro hnd index hmem g hg hrm
    rw [hf]
    exact foldl_removeAt_absent env d.c.watchGroups _ idxs d.c.files hnd index hmem g hg hrm

/-- Claim C8 (amended) on the state whose watched address `app:a` is rendered
at `/out/a`, and the deletion of the key `a`: the loop body returns a state
without files, and so does `OnChange`. -/
theorem onChangeEntry_deleted_removes_rendered_witness :
    isDataNamespace deletedEvent.Namespace = false ∧
      ':' ∉ deletedEvent.Namespace.data ∧ "a" ≠ "" ∧
      mapGet renderedState.fileWatchGroup (joinKey deletedEvent.Namespace "a") = some [0] ∧
      renderedState.files = [("/out/a", ascii "hello")] ∧
      (∃ d', onChangeEntry toyEnv deletedEvent
          { c := renderedState, dataChanged := false, changedGroups := [] } "a"
          { ChangeType := .DELETED, NewValue := "" } = .next d' ∧ d'.c.files = []) ∧
      (OnChange toyEnv renderedState deletedEvent).map (fun c => (c.files, c.started)) =
        some ([], ["/bin/reload"]) :=
  ⟨by decide, by decide, by decide, by decide, by decide,
    (onChangeEntry_deleted_removes_rendered toyEnv deletedEvent
      { c := renderedState, dataChanged := false, changedGroups := [] } "a"
      { ChangeType := .DELETED, NewValue := "" } [0]
      rfl (by decide) (by decide) (by decide) (by decide) (by decide)).2.2.imp
      (fun _ h => ⟨h.1, h.2.1.trans (by decide)⟩),
    by decide⟩

end Confd
